import Mathlib

/-!
Verification of the `bitf` bitflag library.

The source wraps a 31-bit non-negative integer ("FlagValue") and exposes pure
bitwise operations (`has`, `hasAny`, `hasExact`, `add`, `remove`, `toggle`,
`clear`) plus a description generator (`describe`) that decomposes a value
into named known flags and anonymous unknown bits.

The embedding below follows `src/index.ts` / the engine copy bundled in the
repository. FlagValues and flag arguments are modelled as `Nat` (they are
validated to lie in `[0, 0x7FFFFFFF]`, where every JavaScript 32-bit bitwise
operation agrees with the corresponding `Nat` operation); the JavaScript
expression `~combined`, whose operand is truncated to 32 bits, is embedded as
XOR against the 32-bit all-ones mask `0xFFFFFFFF`.  Definition tables
(`Object.entries` order) are modelled as association lists in iteration
order.  JavaScript numbers reaching `defineBitflags` validation are modelled
by `JSNum` (NaN, the two infinities, or a finite rational).
-/

namespace Bitf

/-- The inclusive upper bound of the FlagValue domain, `0x7FFFFFFF`. -/
def flagMax : Nat := 0x7fffffff

/-- `combineFlags` from the source: bitwise OR of all arguments, `0` for none. -/
def combineFlags (flags : List Nat) : Nat :=
  flags.foldl (fun result f => result ||| f) 0

/-- `has(...flags)`: `false` on no arguments, else `(value & combined) === combined`. -/
def has (value : Nat) (flags : List Nat) : Bool :=
  if flags.length = 0 then false
  else
    let combined := combineFlags flags
    (value &&& combined) == combined

/-- `hasAny(...flags)`: `false` on no arguments, else `(value & combined) !== 0`. -/
def hasAny (value : Nat) (flags : List Nat) : Bool :=
  if flags.length = 0 then false
  else
    let combined := combineFlags flags
    (value &&& combined) != 0

/-- `hasExact(...flags)`: `value === 0` on no arguments, else `value === combined`. -/
def hasExact (value : Nat) (flags : List Nat) : Bool :=
  if flags.length = 0 then value == 0
  else
    let combined := combineFlags flags
    value == combined

/-- `add(...flags)`: the value unchanged on no arguments, else `value | combined`. -/
def add (value : Nat) (flags : List Nat) : Nat :=
  if flags.length = 0 then value
  else
    let combined := combineFlags flags
    value ||| combined

/-- `remove(...flags)`: the value unchanged on no arguments, else
`value & ~combined`; the 32-bit complement `~combined` is embedded as
`0xFFFFFFFF ^^^ combined`. -/
def remove (value : Nat) (flags : List Nat) : Nat :=
  if flags.length = 0 then value
  else
    let combined := combineFlags flags
    value &&& (0xffffffff ^^^ combined)

/-- `toggle(...flags)`: the value unchanged on no arguments, else `value ^ combined`. -/
def toggle (value : Nat) (flags : List Nat) : Nat :=
  if flags.length = 0 then value
  else
    let combined := combineFlags flags
    value ^^^ combined

/-- `clear()`: always `0`. -/
def clear (_value : Nat) : Nat := 0

end Bitf

namespace Bitf

theorem combineFlags_lt_two_pow {flags : List Nat}
    (h : ∀ f ∈ flags, f < 2 ^ 31) : combineFlags flags < 2 ^ 31 := by
  have general : ∀ (l : List Nat) (a : Nat), (∀ f ∈ l, f < 2 ^ 31) → a < 2 ^ 31 →
      l.foldl (fun result f => result ||| f) a < 2 ^ 31 := by
    intro l
    induction l with
    | nil => intro a _ ha; simpa using ha
    | cons x xs ih =>
      intro a hl ha
      simp only [List.foldl_cons]
      exact ih _ (fun f hf => hl f (List.mem_cons_of_mem _ hf))
        (Nat.or_lt_two_pow ha (hl x (List.mem_cons_self _ _)))
  exact general flags 0 h (by norm_num)

theorem testBit_combineFlags (flags : List Nat) (j : Nat) :
    (combineFlags flags).testBit j = flags.any (fun f => f.testBit j) := by
  have general : ∀ (l : List Nat) (a : Nat),
      (l.foldl (fun result f => result ||| f) a).testBit j
        = (a.testBit j || l.any (fun f => f.testBit j)) := by
    intro l
    induction l with
    | nil => intro a; simp
    | cons x xs ih =>
      intro a
      simp only [List.foldl_cons, List.any_cons]
      rw [ih, Nat.testBit_lor, Bool.or_assoc]
  simpa using general flags 0

end Bitf

namespace Bitf

theorem exists_testBit_of_ne_zero {n : Nat} (h : n ≠ 0) : ∃ j, n.testBit j = true := by
  obtain ⟨i, hi, -⟩ := Nat.exists_most_significant_bit h
  exact ⟨i, hi⟩

end Bitf

/-- C6: with a non-empty argument list and `combined` the bitwise OR of the
arguments, `has` is true iff every bit of `combined` is set in the current
value, `hasAny` is true iff the current value shares at least one bit with
`combined`, and `hasExact` is true iff the current value equals `combined`. -/
theorem C6_has_hasAny_hasExact (value : Nat) (flags : List Nat)
    (hne : flags ≠ []) :
    (Bitf.has value flags = true ↔
        ∀ j, (Bitf.combineFlags flags).testBit j = true → value.testBit j = true) ∧
    (Bitf.hasAny value flags = true ↔
        ∃ j, value.testBit j = true ∧ (Bitf.combineFlags flags).testBit j = true) ∧
    (Bitf.hasExact value flags = true ↔ value = Bitf.combineFlags flags) := by
  have hlen : flags.length ≠ 0 := fun h => hne (List.length_eq_zero.mp h)
  refine ⟨?_, ?_, ?_⟩
  · simp only [Bitf.has, if_neg hlen, beq_iff_eq]
    constructor
    · intro h j hcj
      have := congrArg (fun n => n.testBit j) h
      simp only [Nat.testBit_land, hcj, Bool.and_true] at this
      exact this
    · intro h
      apply Nat.eq_of_testBit_eq
      intro j
      rw [Nat.testBit_land]
      cases hc : (Bitf.combineFlags flags).testBit j with
      | false => simp
      | true => simp [h j hc]
  · simp only [Bitf.hasAny, if_neg hlen, bne_iff_ne, ne_eq]
    constructor
    · intro h
      obtain ⟨j, hj⟩ := Bitf.exists_testBit_of_ne_zero h
      rw [Nat.testBit_land, Bool.and_eq_true] at hj
      exact ⟨j, hj⟩
    · rintro ⟨j, hv, hc⟩ hzero
      have := congrArg (fun n => n.testBit j) hzero
      simp [Nat.testBit_land, hv, hc] at this
  · simp only [Bitf.hasExact, if_neg hlen, beq_iff_eq]

/-- C6 witness at `value = 5`, `flags = [1, 4]`. -/
theorem C6_witness :
    (Bitf.has 5 [1, 4] = true ↔
        ∀ j, (Bitf.combineFlags [1, 4]).testBit j = true → (5 : Nat).testBit j = true) ∧
    (Bitf.hasAny 5 [1, 4] = true ↔
        ∃ j, (5 : Nat).testBit j = true ∧ (Bitf.combineFlags [1, 4]).testBit j = true) ∧
    (Bitf.hasExact 5 [1, 4] = true ↔ 5 = Bitf.combineFlags [1, 4]) :=
  C6_has_hasAny_hasExact 5 [1, 4] (by decide)

/-- C7: with no arguments, `has` is always false, `hasAny` is always false,
and `hasExact` is true exactly when the current value is `0`. -/
theorem C7_zero_arguments (value : Nat) :
    Bitf.has value [] = false ∧ Bitf.hasAny value [] = false ∧
    (Bitf.hasExact value [] = true ↔ value = 0) := by
  refine ⟨rfl, rfl, ?_⟩
  simp [Bitf.hasExact]

/-- C8: `toggle` is an involution: toggling the same flag twice restores the
original value, for every FlagValue and flag in `[0, 0x7FFFFFFF]`. -/
theorem C8_toggle_involution (a x : Nat) (ha : a ≤ Bitf.flagMax)
    (hx : x ≤ Bitf.flagMax) :
    Bitf.toggle (Bitf.toggle a [x]) [x] = a := by
  have hc : Bitf.combineFlags [x] = x := by
    simp [Bitf.combineFlags]
  simp only [Bitf.toggle, List.length_cons, List.length_nil, hc,
    if_neg (by decide : ¬(0 + 1 = 0))]
  rw [Nat.xor_assoc, Nat.xor_self, Nat.xor_zero]

/-- C8 witness at `a = 5`, `x = 3`. -/
theorem C8_witness :
    (5 : Nat) ≤ Bitf.flagMax ∧ (3 : Nat) ≤ Bitf.flagMax ∧
    Bitf.toggle (Bitf.toggle 5 [3]) [3] = 5 :=
  ⟨by decide, by decide, C8_toggle_involution 5 3 (by decide) (by decide)⟩

/-- C9: the FlagValue range is closed under the algebraic operations: with the
current value and every flag argument in `[0, 0x7FFFFFFF]`, the results of
`add`, `remove`, `toggle` and `clear` all lie in `[0, 0x7FFFFFFF]`. -/
theorem C9_range_closure (value : Nat) (flags : List Nat)
    (hv : value ≤ Bitf.flagMax) (hf : ∀ f ∈ flags, f ≤ Bitf.flagMax) :
    Bitf.add value flags ≤ Bitf.flagMax ∧
    Bitf.remove value flags ≤ Bitf.flagMax ∧
    Bitf.toggle value flags ≤ Bitf.flagMax ∧
    Bitf.clear value ≤ Bitf.flagMax := by
  have hmax : Bitf.flagMax = 2 ^ 31 - 1 := by decide
  have hv' : value < 2 ^ 31 := by omega
  have hf' : ∀ f ∈ flags, f < 2 ^ 31 := by
    intro f hmem
    have := hf f hmem
    omega
  have hc : Bitf.combineFlags flags < 2 ^ 31 := Bitf.combineFlags_lt_two_pow hf'
  refine ⟨?_, ?_, ?_, ?_⟩
  · unfold Bitf.add
    split
    · exact hv
    · show value ||| Bitf.combineFlags flags ≤ Bitf.flagMax
      have := Nat.or_lt_two_pow hv' hc
      omega
  · unfold Bitf.remove
    split
    · exact hv
    · exact le_trans Nat.and_le_left hv

  · unfold Bitf.toggle
    split
    · exact hv
    · show value ^^^ Bitf.combineFlags flags ≤ Bitf.flagMax
      have := Nat.xor_lt_two_pow hv' hc
      omega
  · exact Nat.zero_le _

/-- C9 witness at `value = 6`, `flags = [3, 0x7FFFFFFF]`. -/
theorem C9_witness :
    Bitf.add 6 [3, 0x7fffffff] ≤ Bitf.flagMax ∧
    Bitf.remove 6 [3, 0x7fffffff] ≤ Bitf.flagMax ∧
    Bitf.toggle 6 [3, 0x7fffffff] ≤ Bitf.flagMax ∧
    Bitf.clear 6 ≤ Bitf.flagMax :=
  C9_range_closure 6 [3, 0x7fffffff] (by decide) (by decide)

/-- C10: calling `has` with the single flag argument `0` returns true (the
all-bits test is vacuous on a zero combined mask), while `has` with no
arguments returns false; `hasAny` with the single argument `0` returns
false. -/
theorem C10_zero_flag_argument (value : Nat) :
    Bitf.has value [0] = true ∧ Bitf.hasAny value [0] = false ∧
    Bitf.has value [] = false := by
  refine ⟨?_, ?_, rfl⟩
  · simp [Bitf.has, Bitf.combineFlags]
  · simp [Bitf.hasAny, Bitf.combineFlags]

namespace Bitf

/-- The `BitPosition` record produced by `createBitPosition`. -/
structure BitPosition where
  exact : Int
  remaining : Int
  visual : String
deriving DecidableEq, Repr

/-- `createBitPosition(value)` from the source: the zero case returns the
fixed record; otherwise one loop pass over bit positions `30` down to `0`
builds the visual tokens (`"[1]"` for a set bit, `"0"` otherwise) and
collects the set positions, and `exact` is `Math.max(...exactPositions)`
(guarded by a non-emptiness check, `0` otherwise). -/
def createBitPosition (value : Nat) : BitPosition :=
  if value = 0 then
    { exact := -1, remaining := 31, visual := "(0)0000000000000000000000000000000" }
  else
    let positions := (List.range 31).reverse
    let bits := positions.map (fun i => if value &&& (1 <<< i) ≠ 0 then "[1]" else "0")
    let exactPositions := positions.filter (fun i => value &&& (1 <<< i) ≠ 0)
    let maxPosition := if exactPositions.length > 0 then exactPositions.foldr max 0 else 0
    { exact := (maxPosition : Int),
      remaining := 31 - (maxPosition : Int),
      visual := "(0)" ++ String.join bits }

/-- `value.toString(16).toUpperCase()`. -/
def toHexUpper (n : Nat) : String :=
  String.mk ((Nat.toDigits 16 n).map Char.toUpper)

/-- `value.toString(2)`. -/
def toBin (n : Nat) : String :=
  String.mk (Nat.toDigits 2 n)

/-- One record of the `describe` generator. -/
structure FlagDescription where
  name : String
  value : Nat
  decimal : String
  hexadecimal : String
  binary : String
  unknown : Bool
  bitPosition : BitPosition
deriving DecidableEq, Repr

/-- The record literal pushed or yielded by `describe` for a flag of value
`numValue`: decimal, uppercase-hex and binary renderings of the value plus
its bit-position record. -/
def mkFlagDescription (name : String) (numValue : Nat) (unknown : Bool) :
    FlagDescription :=
  { name := name
    value := numValue
    decimal := toString numValue
    hexadecimal := "0x" ++ toHexUpper numValue
    binary := "0b" ++ toBin numValue
    unknown := unknown
    bitPosition := createBitPosition numValue }

/-- One iteration of the `for (const [name, flagValue] of Object.entries(...))`
loop in `describe`: on a non-zero entry matching `(value & numValue) === numValue`
the known record is appended and the entry's bits are cleared from the
unknown-bits accumulator (`unknownBits &= ~numValue`, on 32-bit operands). -/
def describeStep (value : Nat) (acc : List FlagDescription × Nat)
    (entry : String × Nat) : List FlagDescription × Nat :=
  let numValue := entry.2
  if numValue ≠ 0 ∧ (value &&& numValue) = numValue then
    (acc.1 ++ [mkFlagDescription entry.1 numValue false],
      acc.2 &&& (0xffffffff ^^^ numValue))
  else acc

/-- The `for (let bit = 0; bit < 31; bit++) if (bits & mask) yield ...` loops
of `describe`, parameterized by the scanned value, the name stem (`"BIT_"` or
`"UNKNOWN_BIT_"`) and the `unknown` field. -/
def bitScanRecords (bitsValue : Nat) (stem : String) (unknown : Bool) :
    List FlagDescription :=
  (List.range 31).filterMap (fun bit =>
    let mask := 1 <<< bit
    if bitsValue &&& mask ≠ 0 then
      some (mkFlagDescription (stem ++ toString bit) mask unknown)
    else none)

/-- `describe(flagDefinitions?)` from the source, with the generator
materialized as the list of yielded records: the zero value yields the single
`NONE` record; otherwise the definitions (when present) are folded to collect
known matches and clear their bits from the unknown accumulator, and the
yields are either the generic `BIT_` scan (no definitions or an empty table)
or the known records followed by the `UNKNOWN_BIT_` scan of the non-zero
remainder. -/
def describe (value : Nat) (flagDefinitions : Option (List (String × Nat))) :
    List FlagDescription :=
  if value = 0 then
    [{ name := "NONE", value := 0, decimal := "0", hexadecimal := "0x0",
       binary := "0b0", unknown := false, bitPosition := createBitPosition 0 }]
  else
    let folded :=
      match flagDefinitions with
      | some defs => defs.foldl (describeStep value) ([], value)
      | none => ([], value)
    let knownFlags := folded.1
    let unknownBits := folded.2
    match flagDefinitions with
    | none => bitScanRecords value "BIT_" false
    | some defs =>
      if defs.length = 0 then bitScanRecords value "BIT_" false
      else
        knownFlags ++
          (if unknownBits ≠ 0 then bitScanRecords unknownBits "UNKNOWN_BIT_" true
           else [])

end Bitf

namespace Bitf

/-- Projection of a description record to the fields the ordering claims
speak about: name, value and the unknown marker. -/
def descProj (r : FlagDescription) : String × Nat × Bool :=
  (r.name, r.value, r.unknown)

theorem filterMap_eq_filter_map {α β : Type} (l : List α) (q : α → Bool)
    (g : α → β) (f : α → Option β)
    (hf : ∀ a, f a = if q a then some (g a) else none) :
    l.filterMap f = (l.filter q).map g := by
  induction l with
  | nil => rfl
  | cons x xs ih =>
    rw [List.filterMap_cons, List.filter_cons, hf x]
    cases hq : q x <;> simp [hq, ih]

theorem and_shiftLeft_ne_zero (v p : Nat) :
    (v &&& 1 <<< p ≠ 0) ↔ v.testBit p = true := by
  rw [Nat.shiftLeft_eq, one_mul, Nat.and_two_pow]
  cases h : v.testBit p <;> simp [h, Nat.pos_iff_ne_zero.symm, Nat.pos_pow_of_pos]

theorem bitScanRecords_map (b : Nat) (stem : String) (u : Bool) :
    (bitScanRecords b stem u).map descProj
      = ((List.range 31).filter (fun p => b.testBit p)).map
          (fun p => (stem ++ toString p, 2 ^ p, u)) := by
  unfold bitScanRecords
  rw [List.map_filterMap]
  apply filterMap_eq_filter_map
  intro p
  by_cases h : b.testBit p = true
  · rw [if_pos ((and_shiftLeft_ne_zero b p).mpr h), h, if_pos rfl]
    simp [descProj, mkFlagDescription, Nat.shiftLeft_eq]
  · have hb : b.testBit p = false := by
      cases hp : b.testBit p
      · rfl
      · exact absurd hp h
    rw [if_neg (fun hc => h ((and_shiftLeft_ne_zero b p).mp hc)), hb]
    simp

end Bitf

/-- C4: for a wrapped value of exactly `0`, `describe` — with or without a
definitions table — yields exactly one record, named `"NONE"`, with value `0`,
decimal `"0"`, hexadecimal `"0x0"`, binary `"0b0"`, `unknown = false`,
`bitPosition.exact = -1` and `bitPosition.remaining = 31`. -/
theorem C4_describe_zero (flagDefinitions : Option (List (String × Nat))) :
    Bitf.describe 0 flagDefinitions =
      [{ name := "NONE", value := 0, decimal := "0", hexadecimal := "0x0",
         binary := "0b0", unknown := false,
         bitPosition := { exact := -1, remaining := 31,
                          visual := "(0)0000000000000000000000000000000" } }] := by
  simp [Bitf.describe, Bitf.createBitPosition]

/-- C5: for every non-zero FlagValue, `describe` with no definitions table —
or with an empty one — yields, for each set bit at positions `0` through `30`
in ascending order, exactly one record named `"BIT_<position>"` whose value is
that single bit `2 ^ position` and whose unknown field is `false`, and no
other records. -/
theorem C5_describe_no_definitions (v : Nat) (hv0 : v ≠ 0)
    (hv : v ≤ Bitf.flagMax) :
    (Bitf.describe v none).map Bitf.descProj
        = ((List.range 31).filter (fun p => v.testBit p)).map
            (fun p => ("BIT_" ++ toString p, 2 ^ p, false)) ∧
    (Bitf.describe v (some [])).map Bitf.descProj
        = ((List.range 31).filter (fun p => v.testBit p)).map
            (fun p => ("BIT_" ++ toString p, 2 ^ p, false)) := by
  have hn : Bitf.describe v none = Bitf.bitScanRecords v "BIT_" false := by
    simp [Bitf.describe, hv0]
  have he : Bitf.describe v (some []) = Bitf.bitScanRecords v "BIT_" false := by
    simp [Bitf.describe, hv0]
  rw [hn, he, Bitf.bitScanRecords_map]
  exact ⟨rfl, rfl⟩

/-- C5 witness at `v = (1<<0) ||| (1<<2) ||| (1<<5) = 37`: exactly the three
records `BIT_0`, `BIT_2`, `BIT_5`, each with its single-bit value, not
unknown. -/
theorem C5_witness :
    (Bitf.describe 37 none).map Bitf.descProj
        = [("BIT_0", 1, false), ("BIT_2", 4, false), ("BIT_5", 32, false)] ∧
    (Bitf.describe 37 (some [])).map Bitf.descProj
        = [("BIT_0", 1, false), ("BIT_2", 4, false), ("BIT_5", 32, false)] := by
  have h := C5_describe_no_definitions 37 (by decide) (by decide)
  exact ⟨h.1.trans (by decide), h.2.trans (by decide)⟩

namespace Bitf

theorem foldr_max_le (l : List Nat) (e : Nat) (h : ∀ x ∈ l, x ≤ e) :
    l.foldr max 0 ≤ e := by
  induction l with
  | nil => exact Nat.zero_le e
  | cons x xs ih =>
    simp only [List.foldr_cons]
    exact max_le (h x (List.mem_cons_self _ _))
      (ih fun y hy => h y (List.mem_cons_of_mem _ hy))

theorem le_foldr_max (l : List Nat) (x : Nat) (h : x ∈ l) :
    x ≤ l.foldr max 0 := by
  induction l with
  | nil => cases h
  | cons y ys ih =>
    simp only [List.foldr_cons]
    rcases List.mem_cons.mp h with rfl | hy
    · exact le_max_left _ _
    · exact le_trans (ih hy) (le_max_right _ _)

theorem decide_and_shiftLeft_eq_testBit (v : Nat) :
    ∀ i, (decide (v &&& 1 <<< i ≠ 0)) = v.testBit i := by
  intro i
  cases hti : v.testBit i with
  | false =>
    apply decide_eq_false
    intro hc
    rw [(and_shiftLeft_ne_zero v i).mp hc] at hti
    cases hti
  | true => exact decide_eq_true ((and_shiftLeft_ne_zero v i).mpr hti)

end Bitf

/-- C3 as literally stated fails at `v = 0`: the code returns
`exact = -1` and `remaining = 31` there, while `31 - exact = 32`, so the
claimed `remaining = 31 - exact` does not hold. -/
theorem C3_counterexample :
    (Bitf.createBitPosition 0).exact = -1 ∧
    (Bitf.createBitPosition 0).remaining = 31 ∧
    (31 : Int) - (Bitf.createBitPosition 0).exact = 32 ∧
    ¬((Bitf.createBitPosition 0).remaining =
        31 - (Bitf.createBitPosition 0).exact) := by
  decide

/-- C3 (amended): for every FlagValue `v` in `[0, 0x7FFFFFFF]` the computed
bit-position record has `exact` equal to the highest set bit index of `v`
(in `0`–`30`), or `-1` when `v = 0`; `remaining` equal to `31 - exact` when
`v ≠ 0`, and to `31` (not `31 - (-1) = 32`) when `v = 0`; and `visual` equal
to the 3-character token `"(0)"` followed by one token per bit from position
`30` down to position `0`, `"[1]"` for a set bit and `"0"` for an unset
bit. -/
theorem C3_bit_position (v : Nat) (hv : v ≤ Bitf.flagMax) :
    ((v = 0 → (Bitf.createBitPosition v).exact = -1 ∧
        (Bitf.createBitPosition v).remaining = 31) ∧
     (v ≠ 0 → (∃ e : Nat, e ≤ 30 ∧ (Bitf.createBitPosition v).exact = (e : Int) ∧
          v.testBit e = true ∧ (∀ j, v.testBit j = true → j ≤ e)) ∧
        (Bitf.createBitPosition v).remaining =
          31 - (Bitf.createBitPosition v).exact)) ∧
    (Bitf.createBitPosition v).visual =
      "(0)" ++ String.join ((List.range 31).reverse.map
        (fun i => if v.testBit i then "[1]" else "0")) := by
  by_cases h0 : v = 0
  · subst h0
    refine ⟨⟨fun _ => by decide, fun h => absurd rfl h⟩, by decide⟩
  · obtain ⟨e, he, habove⟩ := Nat.exists_most_significant_bit h0
    have hub : ∀ j, v.testBit j = true → j ≤ e := by
      intro j hj
      by_contra hcon
      push_neg at hcon
      rw [habove j hcon] at hj
      cases hj
    have he30 : e ≤ 30 := by
      have h1 : 2 ^ e ≤ v := Nat.testBit_implies_ge he
      have h2 : v < 2 ^ 31 := by
        have := hv
        unfold Bitf.flagMax at this
        omega
      have h3 : 2 ^ e < 2 ^ 31 := lt_of_le_of_lt h1 h2
      have h4 : e < 31 := (Nat.pow_lt_pow_iff_right (by norm_num)).mp h3
      omega
    have hfilter :
        ((List.range 31).reverse.filter (fun i => decide (v &&& 1 <<< i ≠ 0)))
          = ((List.range 31).reverse.filter (fun i => v.testBit i)) :=
      List.filter_congr (fun i _ => Bitf.decide_and_shiftLeft_eq_testBit v i)
    have he_mem : e ∈ (List.range 31).reverse.filter (fun i => v.testBit i) := by
      rw [List.mem_filter, List.mem_reverse, List.mem_range]
      exact ⟨by omega, he⟩
    have hlen :
        0 < ((List.range 31).reverse.filter (fun i => v.testBit i)).length :=
      List.length_pos.mpr (List.ne_nil_of_mem he_mem)
    have hmaxval :
        ((List.range 31).reverse.filter (fun i => v.testBit i)).foldr max 0 = e := by
      apply le_antisymm
      · exact Bitf.foldr_max_le _ e (fun x hx => hub x (List.mem_filter.mp hx).2)
      · exact Bitf.le_foldr_max _ e he_mem
    have htok : ∀ i, (if v &&& 1 <<< i ≠ 0 then "[1]" else "0")
        = (if v.testBit i then "[1]" else "0") := by
      intro i
      by_cases h : v.testBit i = true
      · rw [if_pos ((Bitf.and_shiftLeft_ne_zero v i).mpr h), if_pos h]
      · rw [if_neg (fun hc => h ((Bitf.and_shiftLeft_ne_zero v i).mp hc)), if_neg h]
    simp only [Bitf.createBitPosition, if_neg h0]
    rw [hfilter, if_pos hlen, hmaxval]
    refine ⟨⟨fun h => absurd h h0, fun _ => ⟨⟨e, he30, rfl, he, hub⟩, trivial⟩⟩, ?_⟩
    simp only [htok]

/-- C3 witness at `v = 5`. -/
theorem C3_witness :
    (((5 : Nat) = 0 → (Bitf.createBitPosition 5).exact = -1 ∧
        (Bitf.createBitPosition 5).remaining = 31) ∧
     ((5 : Nat) ≠ 0 →
        (∃ e : Nat, e ≤ 30 ∧ (Bitf.createBitPosition 5).exact = (e : Int) ∧
          (5 : Nat).testBit e = true ∧
          (∀ j, (5 : Nat).testBit j = true → j ≤ e)) ∧
        (Bitf.createBitPosition 5).remaining =
          31 - (Bitf.createBitPosition 5).exact)) ∧
    (Bitf.createBitPosition 5).visual =
      "(0)" ++ String.join ((List.range 31).reverse.map
        (fun i => if (5 : Nat).testBit i then "[1]" else "0")) :=
  C3_bit_position 5 (by decide)

namespace Bitf

/-- Spec-side: the table entries emitted as known matches for value `v` —
exactly those whose value is non-zero and satisfies
`(v & entryValue) === entryValue` — in table-definition order. -/
def specKnownEntries (v : Nat) (defs : List (String × Nat)) :
    List (String × Nat) :=
  defs.filter (fun e => decide (e.2 ≠ 0 ∧ v &&& e.2 = e.2))

/-- Spec-side: bit `p` is still unknown when it is set in `v` and no emitted
known entry covers it. -/
def specResidualBit (v : Nat) (defs : List (String × Nat)) (p : Nat) : Bool :=
  v.testBit p && (specKnownEntries v defs).all (fun e => !e.2.testBit p)

theorem describe_foldl_spec (v : Nat) (defs : List (String × Nat))
    (k : List FlagDescription) (u : Nat) :
    defs.foldl (describeStep v) (k, u) =
      (k ++ (specKnownEntries v defs).map (fun e => mkFlagDescription e.1 e.2 false),
       (specKnownEntries v defs).foldl (fun acc e => acc &&& (0xffffffff ^^^ e.2)) u) := by
  induction defs generalizing k u with
  | nil => simp [specKnownEntries]
  | cons x xs ih =>
    rw [List.foldl_cons]
    simp only [describeStep]
    by_cases hx : x.2 ≠ 0 ∧ v &&& x.2 = x.2
    · rw [if_pos hx, ih]
      simp [specKnownEntries, List.filter_cons, hx]
    · rw [if_neg hx, ih]
      simp [specKnownEntries, List.filter_cons, hx]

theorem clear_foldl_testBit (l : List (String × Nat)) :
    ∀ (u : Nat), u < 2 ^ 31 → ∀ p,
      (l.foldl (fun acc e => acc &&& (0xffffffff ^^^ e.2)) u).testBit p
        = (u.testBit p && l.all (fun e => !e.2.testBit p)) := by
  induction l with
  | nil => intro u _ p; simp
  | cons x xs ih =>
    intro u hu p
    rw [List.foldl_cons]
    have hu' : u &&& (0xffffffff ^^^ x.2) < 2 ^ 31 :=
      lt_of_le_of_lt Nat.and_le_left hu
    have hmask : (0xffffffff : Nat) = 2 ^ 32 - 1 := by norm_num
    have hstep : (u &&& (0xffffffff ^^^ x.2)).testBit p
        = (u.testBit p && !x.2.testBit p) := by
      rw [Nat.testBit_land, Nat.testBit_xor, hmask, Nat.testBit_two_pow_sub_one]
      by_cases hq : p < 32
      · rw [decide_eq_true hq]
        cases x.2.testBit p <;> simp
      · rw [decide_eq_false hq]
        have huq : u.testBit p = false := by
          apply Nat.testBit_eq_false_of_lt
          calc u < 2 ^ 31 := hu
          _ ≤ 2 ^ p := Nat.pow_le_pow_right (by norm_num) (by omega)
        rw [huq]
        simp
    rw [ih _ hu' p, hstep, List.all_cons, Bool.and_assoc]

theorem residual_scan_map (U : Nat) (stem : String) (u : Bool) :
    ((if U ≠ 0 then bitScanRecords U stem u else []).map descProj)
      = ((List.range 31).filter (fun p => U.testBit p)).map
          (fun p => (stem ++ toString p, 2 ^ p, u)) := by
  by_cases hU : U = 0
  · subst hU
    simp [Nat.zero_testBit]
  · rw [if_pos hU, bitScanRecords_map]

end Bitf

/-- C1: for every non-zero FlagValue and every non-empty definitions table of
FlagValues, `describe` first emits, in table-definition order, one known
record (name and value of the entry itself, `unknown = false`) for exactly
those entries whose value is non-zero and satisfies
`(v & entryValue) === entryValue` — overlapping entries each matching and
being emitted independently — and afterwards emits, for each bit position `0`
through `30` in ascending order that is set in `v` but covered by no matched
entry (the unknown-bits accumulator initialized to `v` with each matched
entry's bits cleared), a record named `"UNKNOWN_BIT_<position>"` carrying
that single bit's value with `unknown = true`. -/
theorem C1_describe_with_definitions (v : Nat) (defs : List (String × Nat))
    (hv0 : v ≠ 0) (hv : v ≤ Bitf.flagMax) (hdefs : defs ≠ [])
    (hrange : ∀ e ∈ defs, e.2 ≤ Bitf.flagMax) :
    (Bitf.describe v (some defs)).map Bitf.descProj
      = (Bitf.specKnownEntries v defs).map (fun e => (e.1, e.2, false))
        ++ ((List.range 31).filter (Bitf.specResidualBit v defs)).map
            (fun p => ("UNKNOWN_BIT_" ++ toString p, 2 ^ p, true)) := by
  have hlen : ¬(defs.length = 0) := fun h => hdefs (List.length_eq_zero.mp h)
  have hv31 : v < 2 ^ 31 := by
    have := hv
    unfold Bitf.flagMax at this
    omega
  simp only [Bitf.describe, if_neg hv0, if_neg hlen]
  rw [Bitf.describe_foldl_spec v defs [] v]
  simp only [List.nil_append]
  rw [List.map_append, Bitf.residual_scan_map, List.map_map]
  congr 1
  congr 1
  apply List.filter_congr
  intro p _
  exact (Bitf.clear_foldl_testBit (Bitf.specKnownEntries v defs) v hv31 p).trans rfl

/-- C1 witness at `v = 7` with the table
`[("READ", 1), ("RW", 3), ("ZERO", 0), ("X8", 8)]`: the overlapping entries
`READ` and `RW` are both emitted as known matches in table order, the zero
entry and the non-subset entry are skipped, and the leftover bit `2` is
emitted as `UNKNOWN_BIT_2`. -/
theorem C1_witness :
    (Bitf.describe 7 (some [("READ", 1), ("RW", 3), ("ZERO", 0), ("X8", 8)])).map
        Bitf.descProj
      = [("READ", 1, false), ("RW", 3, false), ("UNKNOWN_BIT_2", 4, true)] :=
  (C1_describe_with_definitions 7 [("READ", 1), ("RW", 3), ("ZERO", 0), ("X8", 8)]
      (by decide) (by decide) (by decide) (by decide)).trans (by decide)

namespace Bitf

/-- A JavaScript number as it can reach `defineBitflags` validation: NaN, one
of the two infinities, or a finite value.  Finite doubles are modelled as
rationals; a source literal such as `1.5` is the rational `3/2`, and every
finite double has a terminating decimal expansion. -/
inductive JSNum where
  | nan : JSNum
  | posInf : JSNum
  | negInf : JSNum
  | finite : ℚ → JSNum
deriving DecidableEq

/-- `Number.isInteger(value)`: false for NaN and the infinities, true exactly
for finite values without fractional part. -/
def jsIsInteger : JSNum → Bool
  | .finite q => q.den == 1
  | _ => false

/-- The JavaScript comparison `value < c` against an integer literal:
false when `value` is NaN. -/
def jsLtInt : JSNum → Int → Bool
  | .nan, _ => false
  | .posInf, _ => false
  | .negInf, _ => true
  | .finite q, c => decide (q < (c : ℚ))

/-- The JavaScript comparison `value > c` against an integer literal:
false when `value` is NaN. -/
def jsGtInt : JSNum → Int → Bool
  | .nan, _ => false
  | .posInf, _ => true
  | .negInf, _ => false
  | .finite q, c => decide ((c : ℚ) < q)

/-- Decimal digits printed after the point for the fractional part
`num / den` (with `num < den`); the fuel bounds the digit count and is ample
for every terminating expansion that fits a double. -/
def fracDigitChars : Nat → Nat → Nat → List Char
  | 0, _, _ => []
  | fuel + 1, num, den =>
    if num = 0 then []
    else Char.ofNat (48 + num * 10 / den) :: fracDigitChars fuel (num * 10 % den) den

/-- Decimal rendering of the non-negative non-integral rational `num / den`,
as JavaScript string-interpolates such a value. -/
def posRatToString (num den : Nat) : String :=
  toString (num / den) ++ "." ++ String.mk (fracDigitChars 64 (num % den) den)

/-- String interpolation `${value}` of the offending value: `"NaN"`,
`"Infinity"`, `"-Infinity"`, the plain integer for integral values, and the
decimal expansion otherwise. -/
def jsNumToString : JSNum → String
  | .nan => "NaN"
  | .posInf => "Infinity"
  | .negInf => "-Infinity"
  | .finite q =>
    if q.den = 1 then toString q.num
    else if q < 0 then "-" ++ posRatToString (-q.num).toNat q.den
    else posRatToString q.num.toNat q.den

/-- The message of the error thrown by `defineBitflags` on a bad entry. -/
def invalidFlagMessage (key : String) (value : JSNum) : String :=
  "Invalid bitflag value for \"" ++ key ++ "\": " ++ jsNumToString value ++
    ". Must be a non-negative integer within 31-bit range."

/-- The `for (const [key, value] of Object.entries(frozen))` validation loop
of `defineBitflags`: the message of the first entry failing
`Number.isInteger(value) && value >= 0 && value <= 0x7fffffff`, if any. -/
def checkBitflagEntries : List (String × JSNum) → Option String
  | [] => none
  | (key, value) :: rest =>
    if !(jsIsInteger value) || jsLtInt value 0 || jsGtInt value 0x7fffffff then
      some (invalidFlagMessage key value)
    else checkBitflagEntries rest

/-- `defineBitflags(obj)` from the source: freeze the object (a no-op on an
already-immutable Lean value), throw on the first invalid entry, otherwise
return the frozen object itself. -/
def defineBitflags (obj : List (String × JSNum)) :
    Except String (List (String × JSNum)) :=
  match checkBitflagEntries obj with
  | some msg => Except.error msg
  | none => Except.ok obj

/-- Spec-side rejection classes: fractional, NaN, +Infinity, negative
(including -Infinity), or at least `0x80000000`. -/
def specInvalidFlagValue (v : JSNum) : Bool :=
  match v with
  | .nan => true
  | .posInf => true
  | .negInf => true
  | .finite q => q.den != 1 || decide (q < 0) || decide ((0x80000000 : ℚ) ≤ q)

theorem invalid_check_eq_spec (v : JSNum) :
    (!(jsIsInteger v) || jsLtInt v 0 || jsGtInt v 0x7fffffff)
      = specInvalidFlagValue v := by
  cases v with
  | nan => rfl
  | posInf => rfl
  | negInf => rfl
  | finite q =>
    simp only [jsIsInteger, jsLtInt, jsGtInt, specInvalidFlagValue]
    by_cases hden : q.den = 1
    · by_cases hneg : q < 0
      · simp [hden, hneg]
      · have hq : (q.num : ℚ) = q := (Rat.den_eq_one_iff q).mp hden
        have hiff : (2147483647 : ℚ) < q ↔ (2147483648 : ℚ) ≤ q := by
          rw [← hq]
          constructor
          · intro h
            have h1 : (2147483647 : Int) < q.num := by exact_mod_cast h
            have h2 : (2147483648 : Int) ≤ q.num := by omega
            exact_mod_cast h2
          · intro h
            have h1 : (2147483648 : Int) ≤ q.num := by exact_mod_cast h
            have h2 : (2147483647 : Int) < q.num := by omega
            exact_mod_cast h2
        simp [hden, hneg, hiff]
    · have h1 : (q.den == 1) = false := by simp [hden]
      simp [bne, h1]

end Bitf

/-- C2: `defineBitflags` fails with an error whose message is exactly
`Invalid bitflag value for "<name>": <value>. Must be a non-negative integer
within 31-bit range.` on the first entry (in iteration order) whose value is
fractional, NaN, +Infinity, negative, or at least `0x80000000`, returning no
table; it accepts `0` and `0x7FFFFFFF`; and on an all-valid input it returns
the (immutable) table containing exactly the input entries. -/
theorem C2_defineBitflags_validation :
    (∀ (pre : List (String × Bitf.JSNum)) (key : String) (v : Bitf.JSNum)
        (post : List (String × Bitf.JSNum)),
        (∀ e ∈ pre, Bitf.specInvalidFlagValue e.2 = false) →
        Bitf.specInvalidFlagValue v = true →
        Bitf.defineBitflags (pre ++ (key, v) :: post) =
          Except.error ("Invalid bitflag value for \"" ++ key ++ "\": "
            ++ Bitf.jsNumToString v
            ++ ". Must be a non-negative integer within 31-bit range.")) ∧
    (∀ obj : List (String × Bitf.JSNum),
        (∀ e ∈ obj, Bitf.specInvalidFlagValue e.2 = false) →
        Bitf.defineBitflags obj = Except.ok obj) ∧
    Bitf.specInvalidFlagValue (Bitf.JSNum.finite 0) = false ∧
    Bitf.specInvalidFlagValue (Bitf.JSNum.finite 0x7fffffff) = false := by
  have hcheck : ∀ (pre : List (String × Bitf.JSNum)) (key : String)
      (v : Bitf.JSNum) (post : List (String × Bitf.JSNum)),
      (∀ e ∈ pre, Bitf.specInvalidFlagValue e.2 = false) →
      Bitf.specInvalidFlagValue v = true →
      Bitf.checkBitflagEntries (pre ++ (key, v) :: post) =
        some (Bitf.invalidFlagMessage key v) := by
    intro pre key v post hpre hv
    induction pre with
    | nil =>
      simp only [List.nil_append, Bitf.checkBitflagEntries]
      rw [if_pos]
      rw [Bitf.invalid_check_eq_spec, hv]
    | cons x xs ih =>
      simp only [List.cons_append, Bitf.checkBitflagEntries]
      rw [if_neg]
      · exact ih (fun e he => hpre e (List.mem_cons_of_mem _ he))
      · rw [Bitf.invalid_check_eq_spec, hpre x (List.mem_cons_self _ _)]
        simp
  have hok : ∀ obj : List (String × Bitf.JSNum),
      (∀ e ∈ obj, Bitf.specInvalidFlagValue e.2 = false) →
      Bitf.checkBitflagEntries obj = none := by
    intro obj hobj
    induction obj with
    | nil => rfl
    | cons x xs ih =>
      simp only [Bitf.checkBitflagEntries]
      rw [if_neg]
      · exact ih (fun e he => hobj e (List.mem_cons_of_mem _ he))
      · rw [Bitf.invalid_check_eq_spec, hobj x (List.mem_cons_self _ _)]
        simp
  refine ⟨?_, ?_, by decide, by decide⟩
  · intro pre key v post hpre hv
    unfold Bitf.defineBitflags
    rw [hcheck pre key v post hpre hv]
    rfl
  · intro obj hobj
    unfold Bitf.defineBitflags
    rw [hok obj hobj]

/-- C2 witness: the single fractional entry `{INVALID: 1.5}` fails with the
exact message of the spec's scenario 5. -/
theorem C2_witness :
    Bitf.defineBitflags
        [("INVALID", Bitf.JSNum.finite (Rat.mk' 3 2 (by norm_num) (by norm_num)))] =
      Except.error
        "Invalid bitflag value for \"INVALID\": 1.5. Must be a non-negative integer within 31-bit range." := by
  have h := C2_defineBitflags_validation.1 [] "INVALID"
    (Bitf.JSNum.finite (Rat.mk' 3 2 (by norm_num) (by norm_num))) [] (by simp) (by decide)
  exact h.trans (congrArg Except.error (by decide))
